import Mathlib

/-!
Verification development for the MotifPairMeth repository.

The Rust sources under `src/` are shallowly embedded below:
* `src/utils/iupac.rs` → `IupacBase` with `to_regex`, `complement`, `to_string`,
  `from_char`;
* `src/sequence.rs` → `Contig` with `find_motif_indeces` and
  `find_complement_motif_indeces`;
* `src/pileup.rs` → `PileupRecord`, `PileupChunk`, `parse_and_validate_pileup_record`
  and the chunk reader `next_chunk`;
* `src/main.rs` → `parse_motif_pair_string`, the per-pair evaluator loop body of
  `motif_methylation_pattern`, and the statistics of
  `MotifPairRecordWriter::write_record`.

The motif module (`Motif`, `MotifPair`, `ModType`, `Strand`) lives in the
`memopair::utils` crate whose sources are not part of this repository snapshot;
those definitions are modelled from the specification and marked as such.

Machine integers are embedded as `Nat` with explicit wrap-around (`% 256` for
`u8`) where the Rust code can overflow.  Regex matching of the generated motif
patterns (a concatenation of single-character classes) is embedded as the
standard leftmost non-overlapping fixed-length scan, which is exactly the
behaviour of `Regex::find_iter` on such patterns.
-/

namespace MotifPairMeth

/-- IUPAC degenerate nucleotide alphabet, from `src/utils/iupac.rs`. -/
inductive IupacBase where
  | A | C | G | T | R | Y | S | W | K | M | B | D | H | V | N
deriving DecidableEq, Repr, Fintype

namespace IupacBase

/-- Embeds `IupacBase::to_regex` from `src/utils/iupac.rs`. -/
def to_regex : IupacBase → String
  | .A => "A"
  | .C => "C"
  | .G => "G"
  | .T => "T"
  | .R => "[AG]"
  | .Y => "[CT]"
  | .S => "[GC]"
  | .W => "[AT]"
  | .K => "[GT]"
  | .M => "[AC]"
  | .B => "[CGT]"
  | .D => "[AGT]"
  | .H => "[ACT]"
  | .V => "[ACG]"
  | .N => "."

/-- Embeds `IupacBase::complement` from `src/utils/iupac.rs`. -/
def complement : IupacBase → IupacBase
  | .A => .T
  | .C => .G
  | .G => .C
  | .T => .A
  | .R => .Y
  | .Y => .R
  | .S => .S
  | .W => .W
  | .K => .M
  | .M => .K
  | .B => .V
  | .D => .H
  | .H => .D
  | .V => .B
  | .N => .N

/-- Embeds `IupacBase::to_string` from `src/utils/iupac.rs`. -/
def to_string : IupacBase → String
  | .A => "A"
  | .C => "C"
  | .G => "G"
  | .T => "T"
  | .R => "R"
  | .Y => "Y"
  | .S => "S"
  | .W => "W"
  | .K => "K"
  | .M => "M"
  | .B => "B"
  | .D => "D"
  | .H => "H"
  | .V => "V"
  | .N => "N"

/-- Embeds `IupacBase::from_char` from `src/utils/iupac.rs`
(the `anyhow` error is embedded as `none`). -/
def from_char : Char → Option IupacBase
  | 'A' => some .A
  | 'C' => some .C
  | 'G' => some .G
  | 'T' => some .T
  | 'R' => some .R
  | 'Y' => some .Y
  | 'S' => some .S
  | 'W' => some .W
  | 'K' => some .K
  | 'M' => some .M
  | 'B' => some .B
  | 'D' => some .D
  | 'H' => some .H
  | 'V' => some .V
  | 'N' => some .N
  | _ => none

/-- The standard IUPAC degenerate-nucleotide table, written down independently
from the specification text ("standard IUPAC table", §4.2) in alphabetical
order: the set of concrete bases each symbol denotes.  This is the comparand
for the `to_regex` claim, not a copy of the source function. -/
def degenerate_set : IupacBase → List Char
  | .A => ['A']
  | .C => ['C']
  | .G => ['G']
  | .T => ['T']
  | .R => ['A', 'G']
  | .Y => ['C', 'T']
  | .S => ['C', 'G']
  | .W => ['A', 'T']
  | .K => ['G', 'T']
  | .M => ['A', 'C']
  | .B => ['C', 'G', 'T']
  | .D => ['A', 'G', 'T']
  | .H => ['A', 'C', 'T']
  | .V => ['A', 'C', 'G']
  | .N => ['A', 'C', 'G', 'T']

end IupacBase

/-- Modelled from the spec: the modification-type enum of the `memopair::utils`
crate (not part of this repository snapshot); the spec names 6mA and 5mC
modifications (§3, glossary) and the source tests use `ModType::SixMA`. -/
inductive ModType where
  | SixMA | FiveMC | FourMC
deriving DecidableEq, Repr

/-- Modelled from the spec: parsing of a modification-type symbol (the `FromStr`
instance of `ModType` is not in this snapshot).  Recognizes the motif-string
names used by the source tests ("6mA", "5mC", "4mC") and the standard bedMethyl
pileup codes; an unrecognized symbol is `none` (§4.1). -/
def ModType.fromString : String → Option ModType
  | "6mA" => some .SixMA
  | "5mC" => some .FiveMC
  | "4mC" => some .FourMC
  | "a" => some .SixMA
  | "m" => some .FiveMC
  | "21839" => some .FourMC
  | _ => none

/-- Modelled from the spec: the strand enum of the `memopair::utils` crate
(§3: `strand: {Positive, Negative}`). -/
inductive Strand where
  | Positive | Negative
deriving DecidableEq, Repr

/-- Modelled from the spec: parsing of the pileup strand symbol (the `FromStr`
instance of `Strand` is not in this snapshot); standard pileup convention. -/
def Strand.fromString : String → Option Strand
  | "+" => some .Positive
  | "-" => some .Negative
  | _ => none

deriving instance DecidableEq for Except

/-- Errors of motif / motif-pair construction (the Rust code uses `anyhow`
errors; only the failure cases are distinguished here). -/
inductive MErr where
  | invalidBase | invalidModType | posOutOfRange | invalidPairString | intParse
  | invalidPair
deriving DecidableEq, Repr

/-- Modelled from the spec: a motif is a degenerate sequence, a modification
type and a zero-based modified position (§3).  The `position` field keeps the
source's field name (`motif.position` in `src/main.rs` and `src/sequence.rs`). -/
structure Motif where
  sequence : List IupacBase
  mod_type : ModType
  position : Nat
deriving DecidableEq, Repr

/-- Parse a string of IUPAC letters. -/
def parseBases : List Char → Option (List IupacBase)
  | [] => some []
  | c :: cs => do
    let b ← IupacBase.from_char c
    let bs ← parseBases cs
    pure (b :: bs)

/-- Modelled from the spec: `Motif::new` parses the sequence as IUPAC letters,
parses the modification type, and validates `0 <= position < length(sequence)`
(§3 invariant); any violation is an error. -/
def Motif.new (seq : String) (mt : String) (pos : Nat) : Except MErr Motif :=
  match parseBases seq.data with
  | none => .error .invalidBase
  | some bases =>
    match ModType.fromString mt with
    | none => .error .invalidModType
    | some m =>
      if pos < bases.length then .ok ⟨bases, m, pos⟩ else .error .posOutOfRange

/-- Modelled from the spec: `Motif::reverse_complement` reverses the base
order, complements each base, and remaps the modified position to
`length - 1 - position` (§4.2). -/
def Motif.reverse_complement (m : Motif) : Motif :=
  ⟨(m.sequence.map IupacBase.complement).reverse, m.mod_type,
    m.sequence.length - 1 - m.position⟩

/-- Modelled from the spec: `Motif::regex` concatenates the `to_regex` of each
base in sequence order (§4.2). -/
def Motif.regex (m : Motif) : String :=
  String.join (m.sequence.map IupacBase.to_regex)

/-- The character rendering of an IUPAC base (the single character of
`to_string`). -/
def IupacBase.to_char : IupacBase → Char
  | .A => 'A'
  | .C => 'C'
  | .G => 'G'
  | .T => 'T'
  | .R => 'R'
  | .Y => 'Y'
  | .S => 'S'
  | .W => 'W'
  | .K => 'K'
  | .M => 'M'
  | .B => 'B'
  | .D => 'D'
  | .H => 'H'
  | .V => 'V'
  | .N => 'N'

/-- Modelled from the spec: `Motif::reverse_complement_sequence` renders the
reverse-complement sequence as a string (used by `parse_motif_pair_string` in
`src/main.rs`). -/
def Motif.reverse_complement_sequence (m : Motif) : String :=
  ⟨((m.sequence.map IupacBase.complement).reverse).map IupacBase.to_char⟩

/-- Modelled from the spec: a motif pair caches the palindromic flag computed
at construction (§3, §4.3). -/
structure MotifPair where
  forward : Motif
  reverse : Motif
  is_palindromic : Bool
deriving DecidableEq, Repr

/-- Modelled from the spec: `MotifPair::new` validates that `reverse` is
compatible with `forward`'s reverse-complement construction and caches
`is_palindromic` as `forward.sequence == forward.reverse_complement().sequence`
(§4.3). -/
def MotifPair.new (f r : Motif) : Except MErr MotifPair :=
  if r.sequence = f.reverse_complement.sequence then
    .ok ⟨f, r, decide (f.sequence = f.reverse_complement.sequence)⟩
  else
    .error .invalidPair

/-- Character-level semantics of the single-character regex item
`IupacBase::to_regex` produces: a literal matches itself, a bracketed class
matches its members, and `.` (for N) matches any character other than a
newline (the default Rust regex dot). -/
def baseMatches : IupacBase → Char → Bool
  | .A, c => c = 'A'
  | .C, c => c = 'C'
  | .G, c => c = 'G'
  | .T, c => c = 'T'
  | .R, c => c = 'A' || c = 'G'
  | .Y, c => c = 'C' || c = 'T'
  | .S, c => c = 'G' || c = 'C'
  | .W, c => c = 'A' || c = 'T'
  | .K, c => c = 'G' || c = 'T'
  | .M, c => c = 'A' || c = 'C'
  | .B, c => c = 'C' || c = 'G' || c = 'T'
  | .D, c => c = 'A' || c = 'G' || c = 'T'
  | .H, c => c = 'A' || c = 'C' || c = 'T'
  | .V, c => c = 'A' || c = 'C' || c = 'G'
  | .N, c => c ≠ '\n'

/-- A motif pattern matches the front of a character list when each base
matches the corresponding character (false when too few characters remain). -/
def matchesFront : List IupacBase → List Char → Bool
  | [], _ => true
  | _ :: _, [] => false
  | b :: pat, c :: s => baseMatches b c && matchesFront pat s

/-- The pattern matches the sequence `s` at start position `i`. -/
def matchAt (pat : List IupacBase) (s : List Char) (i : Nat) : Bool :=
  matchesFront pat (s.drop i)

/-- Leftmost non-overlapping scan (fuel-indexed so that it computes by kernel
reduction): this is the semantics of `Regex::find_iter` for the fixed-length
patterns produced by `Motif::regex`.  After a match at `i` the scan resumes at
`i + pattern length` (`max … 1` keeps the step positive for an empty pattern,
matching the empty-match advancement of `find_iter`). -/
def findIterAux (pat : List IupacBase) (s : List Char) : Nat → Nat → List Nat
  | _, 0 => []
  | i, fuel + 1 =>
    if i + pat.length ≤ s.length then
      if matchAt pat s i then
        i :: findIterAux pat s (i + max pat.length 1) fuel
      else
        findIterAux pat s (i + 1) fuel
    else []

/-- All leftmost non-overlapping match start positions of `pat` in `s`. -/
def findIter (pat : List IupacBase) (s : List Char) : List Nat :=
  findIterAux pat s 0 (s.length + 1)

/-- Embeds `PileupRecord` from `src/pileup.rs`. -/
structure PileupRecord where
  reference : String
  position : Nat
  strand : Strand
  mod_type : ModType
  n_mod : Nat
  n_valid_cov : Nat
  n_canonical : Nat
  n_diff : Nat
deriving DecidableEq, Repr

/-- Embeds `PileupChunk` from `src/pileup.rs`. -/
structure PileupChunk where
  reference : String
  records : List PileupRecord
deriving DecidableEq, Repr

/-- Embeds `Contig` from `src/sequence.rs`; the `ahash` record map is embedded
as an association list queried by first match. -/
structure Contig where
  reference : String
  sequence : List Char
  records : List ((Nat × Strand × ModType) × PileupRecord)
deriving DecidableEq, Repr

/-- Lookup in the contig's record map (`contig.records.get(&key)`). -/
def Contig.getRecord (c : Contig) (k : Nat × Strand × ModType) :
    Option PileupRecord :=
  (c.records.find? (fun kv => kv.1 = k)).map (·.2)

/-- Embeds `Contig::find_motif_indeces` from `src/sequence.rs`: scan the
contig's sequence with the motif's regex, record `match_start + position` for
each match, and return `none` when no match was found. -/
def Contig.find_motif_indeces (c : Contig) (m : Motif) : Option (List Nat) :=
  let indices := (findIter m.sequence c.sequence).map (· + m.position)
  if indices.isEmpty then none else some indices

/-- Embeds `Contig::find_complement_motif_indeces` from `src/sequence.rs`:
scan the same forward sequence with the reverse-complement motif's regex,
recording `match_start + reverse_complement.position` for each match. -/
def Contig.find_complement_motif_indeces (c : Contig) (m : Motif) :
    Option (List Nat) :=
  let cm := m.reverse_complement
  let indices := (findIter cm.sequence c.sequence).map (· + cm.position)
  if indices.isEmpty then none else some indices

/-! ## Pileup stream reader (`src/pileup.rs`) -/

/-- A tab-delimited pileup line (`csv::ByteRecord`), embedded as its list of
fields.  Fields are embedded as `String`s; the invalid-UTF-8 failure paths of
the Rust code therefore do not arise in the model. -/
abbrev RawLine := List String

/-- Field access `record.get(i).unwrap_or(b"")`. -/
def getField (l : RawLine) (i : Nat) : String := (l.get? i).getD ""

/-- Embeds `atoi::atoi::<u32>`: parse the leading run of decimal digits,
`none` when there is none or the value overflows `u32`. -/
def atoiNat (s : String) : Option Nat :=
  let ds := s.data.takeWhile Char.isDigit
  if ds.isEmpty then none
  else
    let v := ds.foldl (fun a c => a * 10 + (c.toNat - 48)) 0
    if v < 4294967296 then some v else none

/-- Embeds `parse_and_validate_pileup_record` from `src/pileup.rs`, with the
source's field order: `n_valid_cov` (column 9) is parsed first and checked
against the minimum coverage before anything else; any failure is `none`
(the line is dropped). -/
def parse_and_validate_pileup_record (l : RawLine) (min_cov : Nat) :
    Option PileupRecord :=
  match atoiNat (getField l 9) with
  | none => none
  | some n_valid_cov =>
    if n_valid_cov < min_cov then none
    else
      match atoiNat (getField l 1), Strand.fromString (getField l 5),
          ModType.fromString (getField l 3), atoiNat (getField l 11),
          atoiNat (getField l 12), atoiNat (getField l 17) with
      | some position, some strand, some mod_type, some n_mod,
          some n_canonical, some n_diff =>
        some ⟨getField l 0, position, strand, mod_type, n_mod, n_valid_cov,
          n_canonical, n_diff⟩
      | _, _, _, _, _, _ => none

/-- State of the `PileupChunkReader`: the one-chunk lookahead buffer, the
not-yet-read remainder of the underlying stream, and the end-of-stream flag. -/
structure ReaderState where
  buffer : List RawLine
  input : List RawLine
  eof_reached : Bool
deriving DecidableEq, Repr

/-- Embeds the first loop of `next_chunk` (processing the lookahead buffer):
pop lines while they share the current reference, pushing a mismatching line
back; the first popped line fixes `current_reference` even if it fails
validation.  Returns the current reference, the remaining buffer and the
accumulated parsed records. -/
def bufferLoop (min_cov : Nat) :
    Option String → List RawLine → List PileupRecord →
      Option String × List RawLine × List PileupRecord
  | curRef, [], acc => (curRef, [], acc)
  | curRef, l :: ls, acc =>
    let ref := getField l 0
    match curRef with
    | some c =>
      if ref ≠ c then (some c, l :: ls, acc)
      else
        bufferLoop min_cov (some c) ls
          (acc ++ (parse_and_validate_pileup_record l min_cov).toList)
    | none =>
      bufferLoop min_cov (some ref) ls
        (acc ++ (parse_and_validate_pileup_record l min_cov).toList)

/-- Embeds the second loop of `next_chunk` (reading fresh lines): read lines
while they share the current reference; a line for a different reference is
pushed into the buffer and the loop stops; exhausting the input sets the
end-of-stream flag.  Returns the pushed-back lines, the unread remainder of the
input, the accumulated parsed records and the end-of-stream flag. -/
def readLoop (min_cov : Nat) :
    Option String → List RawLine → List PileupRecord →
      List RawLine × List RawLine × List PileupRecord × Bool
  | _, [], acc => ([], [], acc, true)
  | curRef, l :: ls, acc =>
    let ref := getField l 0
    match curRef with
    | some c =>
      if ref ≠ c then ([l], ls, acc, false)
      else
        readLoop min_cov (some c) ls
          (acc ++ (parse_and_validate_pileup_record l min_cov).toList)
    | none =>
      readLoop min_cov (some ref) ls
        (acc ++ (parse_and_validate_pileup_record l min_cov).toList)

/-- Embeds `PileupChunkReader::next_chunk` from `src/pileup.rs`: drain the
lookahead buffer, then read fresh lines, grouping consecutive lines of one
reference; the chunk's reference is the first parsed record's reference, and
`none` is returned when no record of the group passed validation. -/
def next_chunk (min_cov : Nat) (st : ReaderState) :
    Option PileupChunk × ReaderState :=
  let (curRef, buf1, acc1) := bufferLoop min_cov none st.buffer []
  let (pushed, rem, acc2, eof) := readLoop min_cov curRef st.input acc1
  let st' : ReaderState := ⟨pushed ++ buf1, rem, st.eof_reached || eof⟩
  match acc2 with
  | [] => (none, st')
  | r :: rs => (some ⟨r.reference, r :: rs⟩, st')

/-! ## Motif pair evaluator (`src/main.rs`, `motif_methylation_pattern`) -/

/-- The observable outcome of evaluating one motif pair on one contig: the
record pairs handed to `write_record`, in emission order, and whether the
reverse-strand scan (`find_complement_motif_indeces`) was reached. -/
structure EvalResult where
  rows : List (PileupRecord × PileupRecord)
  scannedReverse : Bool
deriving DecidableEq, Repr

/-- Forward-strand body of the evaluator loop: look up the record at
`(index, Positive, forward.mod_type)` and the partner at
`(index + shift, Negative, reverse.mod_type)`; a missing record skips the
index. -/
def processFwdIndex (c : Contig) (pair : MotifPair) (shift : Nat) (i : Nat) :
    Option (PileupRecord × PileupRecord) := do
  let r1 ← c.getRecord (i, .Positive, pair.forward.mod_type)
  let r2 ← c.getRecord (i + shift, .Negative, pair.reverse.mod_type)
  pure (r1, r2)

/-- Reverse-strand body of the evaluator loop.  The outer `none` marks the
point where the Rust expression `index - mod_position_shift` on `usize` would
underflow (debug panic / release wrap); it is only reached after the first
lookup succeeded, exactly as in the source.  The inner `none` is the ordinary
skipped-site case. -/
def processRevIndex (c : Contig) (pair : MotifPair) (shift : Nat) (i : Nat) :
    Option (Option (PileupRecord × PileupRecord)) :=
  match c.getRecord (i, .Negative, pair.forward.mod_type) with
  | none => some none
  | some r1 =>
    if i < shift then none
    else
      match c.getRecord (i - shift, .Positive, pair.reverse.mod_type) with
      | none => some none
      | some r2 => some (some (r1, r2))

/-- Run the reverse-strand loop over all complement indices, propagating an
underflow as `none`. -/
def processRevIndices (c : Contig) (pair : MotifPair) (shift : Nat) :
    List Nat → Option (List (PileupRecord × PileupRecord))
  | [] => some []
  | i :: is => do
    let o ← processRevIndex c pair shift i
    let rest ← processRevIndices c pair shift is
    pure (o.toList ++ rest)

/-- Embeds the body of the per-pair loop of `motif_methylation_pattern` in
`src/main.rs` for a single motif pair and contig.  `none` marks an unsigned
subtraction that would underflow (the `u8` subtraction computing
`mod_position_shift`, or `index - mod_position_shift` on the reverse strand);
otherwise the result collects the record pairs passed to `write_record` and
records whether the reverse-strand scan was reached. -/
def motif_methylation_pattern (c : Contig) (pair : MotifPair) :
    Option EvalResult :=
  if pair.reverse.reverse_complement.position < pair.forward.position then
    none
  else
    let shift := pair.reverse.reverse_complement.position - pair.forward.position
    match c.find_motif_indeces pair.forward with
    | none => some ⟨[], false⟩
    | some fwdIdx =>
      let fwdRows := fwdIdx.filterMap (processFwdIndex c pair shift)
      if pair.is_palindromic then some ⟨fwdRows, false⟩
      else
        match c.find_complement_motif_indeces pair.forward with
        | none => some ⟨fwdRows, true⟩
        | some revIdx =>
          (processRevIndices c pair shift revIdx).map
            (fun revRows => ⟨fwdRows ++ revRows, true⟩)

/-! ## Motif pair parsing (`src/main.rs`, `parse_motif_pair_string`) -/

/-- Embeds `str::parse::<u8>`: all characters decimal digits, value at most
255 (Rust also accepts a leading `+`, which no claim exercises). -/
def parseU8 (s : String) : Option Nat :=
  if s.data ≠ [] ∧ s.data.all Char.isDigit then
    let v := s.data.foldl (fun a c => a * 10 + (c.toNat - 48)) 0
    if v ≤ 255 then some v else none
  else none

/-- Embeds the body of `parse_motif_pair_string` after splitting on `_`
(`src/main.rs` lines 278-288).  The partner position is computed by the `u8`
expression `sequence_2.len() as u8 - position_2 - 1`, embedded with release
(wrap-around) semantics: `((len % 256) + 512 - p2 - 1) % 256`. -/
def pairFromParts (s1 t1 p1s t2 p2s : String) : Except MErr MotifPair :=
  match parseU8 p1s with
  | none => .error .intParse
  | some p1 =>
    match Motif.new s1 t1 p1 with
    | .error e => .error e
    | .ok m1 =>
      let seq2 := m1.reverse_complement_sequence
      match parseU8 p2s with
      | none => .error .intParse
      | some p2 =>
        let pos2 := ((seq2.length % 256) + 512 - p2 - 1) % 256
        match Motif.new seq2 t2 pos2 with
        | .error e => .error e
        | .ok m2 => MotifPair.new m1 m2

/-- Split a character list at `'_'` separators (the semantics of Rust's
`split('_')`, empty pieces included); `acc` holds the reversed current piece. -/
def splitUnderscoreAux : List Char → List Char → List String
  | [], acc => [String.mk acc.reverse]
  | c :: cs, acc =>
    if c = '_' then String.mk acc.reverse :: splitUnderscoreAux cs []
    else splitUnderscoreAux cs (c :: acc)

/-- Embeds `parse_motif_pair_string` from `src/main.rs`: split on `'_'`,
require exactly five parts, and hand them to `pairFromParts`. -/
def parse_motif_pair_string (s : String) : Except MErr MotifPair :=
  match splitUnderscoreAux s.data [] with
  | [s1, t1, p1s, t2, p2s] => pairFromParts s1 t1 p1s t2 p2s
  | _ => .error .invalidPairString

/-! ## Output statistics (`src/main.rs`, `MotifPairRecordWriter::write_record`)

The statistics are computed on `f64`.  They are embedded in `FVal`, a model of
IEEE-754 double arithmetic whose finite values are tracked as exact rationals:
every predicate the claims mention (a value being exactly `0.0`, exactly
`1.0`, infinite, or NaN) is invariant under rounding of the quotients involved
(numerators and denominators are `u32` counts, so no quotient rounds onto the
values `0.0` or `1.0` and none underflows to zero or overflows to infinity),
and the special-value rules (`x/0.0`, `inf/inf`, NaN propagation) follow the
IEEE-754 rules implemented by Rust `f64`.  Signs of zero are not tracked; the
zeros arising here are all `+0.0`. -/

/-- Model of an `f64` value: an exact finite rational, an infinity, or NaN. -/
inductive FVal where
  | fin : ℚ → FVal
  | posInf
  | negInf
  | nan
deriving DecidableEq, Repr

/-- IEEE-style subtraction (finite values exact). -/
def FVal.sub : FVal → FVal → FVal
  | .nan, _ => .nan
  | _, .nan => .nan
  | .fin a, .fin b => .fin (a - b)
  | .fin _, .posInf => .negInf
  | .fin _, .negInf => .posInf
  | .posInf, .fin _ => .posInf
  | .posInf, .posInf => .nan
  | .posInf, .negInf => .posInf
  | .negInf, .fin _ => .negInf
  | .negInf, .posInf => .negInf
  | .negInf, .negInf => .nan

/-- IEEE-style division (finite values exact, zeros treated as `+0.0`). -/
def FVal.div : FVal → FVal → FVal
  | .nan, _ => .nan
  | _, .nan => .nan
  | .fin a, .fin b =>
    if b = 0 then (if a = 0 then .nan else if 0 < a then .posInf else .negInf)
    else .fin (a / b)
  | .fin _, .posInf => .fin 0
  | .fin _, .negInf => .fin 0
  | .posInf, .fin b => if b < 0 then .negInf else .posInf
  | .negInf, .fin b => if b < 0 then .posInf else .negInf
  | .posInf, _ => .nan
  | .negInf, _ => .nan

/-- IEEE-style absolute value. -/
def FVal.abs : FVal → FVal
  | .nan => .nan
  | .fin a => .fin |a|
  | .posInf => .posInf
  | .negInf => .posInf

/-- IEEE-style strict greater-than (false whenever an operand is NaN). -/
def FVal.gtb : FVal → FVal → Bool
  | .nan, _ => false
  | _, .nan => false
  | .fin a, .fin b => decide (b < a)
  | .fin _, .posInf => false
  | .fin _, .negInf => true
  | .posInf, .posInf => false
  | .posInf, _ => true
  | .negInf, _ => false

/-- The statistical fields of one output row. -/
structure PairStats where
  mean_mod_1 : FVal
  mean_mod_2 : FVal
  abs_methylation_diff : FVal
  odds_1 : FVal
  odds_2 : FVal
  odds_quot : FVal
  classification : String
deriving DecidableEq, Repr

/-- Embeds the statistics portion of `MotifPairRecordWriter::write_record`
(`src/main.rs` lines 223-243): means, odds, the odds ratio (the source
variable `odds_ratio`, here `odds_quot`), and the classification.  The
function is total — every paired hit yields a row, special values included. -/
def write_record_stats (r1 r2 : PileupRecord) : PairStats :=
  let mean_mod_1 := FVal.div (.fin r1.n_mod) (.fin r1.n_valid_cov)
  let mean_mod_2 := FVal.div (.fin r2.n_mod) (.fin r2.n_valid_cov)
  let methylation_diff := FVal.sub mean_mod_1 mean_mod_2
  let abs_methylation_diff := methylation_diff.abs
  let odds_1 := FVal.div mean_mod_1 (FVal.sub (.fin 1) mean_mod_1)
  let odds_2 := FVal.div mean_mod_2 (FVal.sub (.fin 1) mean_mod_2)
  let odds_quot :=
    if odds_2 = FVal.fin 0 ∨ odds_1 = FVal.fin 0 then FVal.nan
    else FVal.div odds_1 odds_2
  let classification :=
    if abs_methylation_diff.gtb (.fin (1 / 2)) then "differential"
    else if abs_methylation_diff.gtb (.fin (1 / 10)) then
      "moderately differential"
    else "non-differential"
  ⟨mean_mod_1, mean_mod_2, abs_methylation_diff, odds_1, odds_2, odds_quot,
    classification⟩

/-! ## Lemmas about the non-overlapping scan -/

theorem matchesFront_length_le {pat : List IupacBase} {cs : List Char}
    (h : matchesFront pat cs = true) : pat.length ≤ cs.length := by
  induction pat generalizing cs with
  | nil => simp
  | cons b ps ih =>
    cases cs with
    | nil => simp [matchesFront] at h
    | cons c cs =>
      simp only [matchesFront, Bool.and_eq_true] at h
      have := ih h.2
      simp only [List.length_cons]
      omega

theorem matchAt_false_of_lt {pat : List IupacBase} {s : List Char} {j : Nat}
    (hpat : pat ≠ []) (h : s.length < j + pat.length) :
    matchAt pat s j = false := by
  by_contra hc
  have hm : matchesFront pat (s.drop j) = true := by
    simpa [matchAt] using hc
  have h1 := matchesFront_length_le hm
  have h2 : (s.drop j).length = s.length - j := List.length_drop j s
  have h3 : 1 ≤ pat.length := List.length_pos.mpr hpat
  omega

theorem findIterAux_mem {pat : List IupacBase} {s : List Char} :
    ∀ {fuel i x}, x ∈ findIterAux pat s i fuel →
      matchAt pat s x = true ∧ i ≤ x := by
  intro fuel
  induction fuel with
  | zero => intro i x hx; simp [findIterAux] at hx
  | succ n ih =>
    intro i x hx
    unfold findIterAux at hx
    split at hx
    · split at hx
      · rcases List.mem_cons.mp hx with rfl | hx'
        · exact ⟨by assumption, le_refl _⟩
        · obtain ⟨h1, h2⟩ := ih hx'
          exact ⟨h1, by omega⟩
      · obtain ⟨h1, h2⟩ := ih hx
        exact ⟨h1, by omega⟩
    · simp at hx

theorem findIterAux_pairwise {pat : List IupacBase} {s : List Char} :
    ∀ fuel i, (findIterAux pat s i fuel).Pairwise (· < ·) := by
  intro fuel
  induction fuel with
  | zero => intro i; simp [findIterAux]
  | succ n ih =>
    intro i
    unfold findIterAux
    split
    · split
      · refine List.pairwise_cons.mpr ⟨fun x hx => ?_, ih _⟩
        have h2 := (findIterAux_mem hx).2
        have h3 : 1 ≤ max pat.length 1 := le_max_right _ _
        omega
      · exact ih _
    · simp

theorem findIterAux_eq_nil_iff {pat : List IupacBase} {s : List Char}
    (hpat : pat ≠ []) :
    ∀ fuel i, s.length + 1 ≤ fuel + i →
      (findIterAux pat s i fuel = [] ↔
        ∀ j, i ≤ j → matchAt pat s j = false) := by
  have hp1 : 1 ≤ pat.length := List.length_pos.mpr hpat
  intro fuel
  induction fuel with
  | zero =>
    intro i h
    constructor
    · intro _ j hj
      exact matchAt_false_of_lt hpat (by omega)
    · intro _; simp [findIterAux]
  | succ n ih =>
    intro i h
    unfold findIterAux
    by_cases hg : i + pat.length ≤ s.length
    · rw [if_pos hg]
      by_cases hm : matchAt pat s i = true
      · rw [if_pos hm]
        constructor
        · intro habs; exact absurd habs (List.cons_ne_nil _ _)
        · intro hall
          exact absurd hm (by simp [hall i (le_refl i)])
      · rw [if_neg hm]
        rw [ih (i + 1) (by omega)]
        constructor
        · intro hall j hj
          rcases Nat.eq_or_lt_of_le hj with rfl | hlt
          · simpa using hm
          · exact hall j hlt
        · intro hall j hj
          exact hall j (by omega)
    · rw [if_neg hg]
      constructor
      · intro _ j hj
        exact matchAt_false_of_lt hpat (by omega)
      · intro _; rfl

/-- The specification of "all non-overlapping leftmost matches": starting from
`i`, either no match exists at or after `i`, or the least match position `j`
at or after `i` is reported and scanning resumes at `j + pattern length`. -/
inductive GreedyScan (pat : List IupacBase) (s : List Char) : Nat → List Nat → Prop
  | nil {i : Nat} (h : ∀ j, i ≤ j → matchAt pat s j = false) : GreedyScan pat s i []
  | cons {i j : Nat} {l : List Nat} (hij : i ≤ j) (hm : matchAt pat s j = true)
      (hleast : ∀ k, i ≤ k → k < j → matchAt pat s k = false)
      (hrest : GreedyScan pat s (j + max pat.length 1) l) :
      GreedyScan pat s i (j :: l)

theorem GreedyScan.weaken {pat : List IupacBase} {s : List Char} {i : Nat}
    {l : List Nat} (hm : matchAt pat s i = false)
    (h : GreedyScan pat s (i + 1) l) : GreedyScan pat s i l := by
  cases h with
  | nil hall =>
    refine GreedyScan.nil fun j hj => ?_
    rcases Nat.eq_or_lt_of_le hj with rfl | hlt
    · exact hm
    · exact hall j hlt
  | cons hij hmj hleast hrest =>
    refine GreedyScan.cons (by omega) hmj (fun k hk1 hk2 => ?_) hrest
    rcases Nat.eq_or_lt_of_le hk1 with rfl | hlt
    · exact hm
    · exact hleast k hlt hk2

theorem findIterAux_greedy {pat : List IupacBase} {s : List Char}
    (hpat : pat ≠ []) :
    ∀ fuel i, s.length + 1 ≤ fuel + i →
      GreedyScan pat s i (findIterAux pat s i fuel) := by
  have hp1 : 1 ≤ pat.length := List.length_pos.mpr hpat
  intro fuel
  induction fuel with
  | zero =>
    intro i h
    simp only [findIterAux]
    exact GreedyScan.nil fun j hj => matchAt_false_of_lt hpat (by omega)
  | succ n ih =>
    intro i h
    unfold findIterAux
    by_cases hg : i + pat.length ≤ s.length
    · rw [if_pos hg]
      by_cases hm : matchAt pat s i = true
      · rw [if_pos hm]
        have hmax : 1 ≤ max pat.length 1 := le_max_right _ _
        exact GreedyScan.cons (le_refl i) hm (fun k hk1 hk2 => by omega)
          (ih _ (by omega))
      · rw [if_neg hm]
        exact GreedyScan.weaken (by simpa using hm) (ih (i + 1) (by omega))
    · rw [if_neg hg]
      exact GreedyScan.nil fun j hj => matchAt_false_of_lt hpat (by omega)

theorem findIter_greedy {pat : List IupacBase} {s : List Char} (hpat : pat ≠ []) :
    GreedyScan pat s 0 (findIter pat s) :=
  findIterAux_greedy hpat (s.length + 1) 0 (by omega)

theorem findIter_eq_nil_iff (pat : List IupacBase) (s : List Char) :
    (findIter pat s = [] ↔ ∀ j, matchAt pat s j = false) := by
  by_cases hpat : pat = []
  · subst hpat
    apply iff_of_false
    · show findIterAux [] s 0 (s.length + 1) ≠ []
      unfold findIterAux
      simp [matchAt, matchesFront]
    · intro hall
      have := hall 0
      simp [matchAt, matchesFront] at this
  · rw [show findIter pat s = findIterAux pat s 0 (s.length + 1) from rfl,
      findIterAux_eq_nil_iff hpat (s.length + 1) 0 (by omega)]
    constructor
    · intro h j; exact h j (Nat.zero_le j)
    · intro h j _; exact h j

/-! ## Claim theorems: contig scanning, IUPAC alphabet -/

/-- Claim C1: `find_motif_indeces` returns `none` exactly when the motif's
pattern matches nowhere in the contig's sequence; otherwise it returns the
non-empty list obtained from the leftmost non-overlapping scan (characterized
by `GreedyScan`), each reported index being a match start plus the motif's
modified position, in strictly ascending order; and on the two concrete
sequences of the specification it returns `[0, 4, 8, 12]` and
`some [7, 21, 33, 49]` respectively. -/
theorem C1_find_motif_indeces (c : Contig) (m : Motif) (hm : m.sequence ≠ []) :
    (c.find_motif_indeces m = none ↔
      ∀ i, matchAt m.sequence c.sequence i = false)
    ∧ (∀ l, c.find_motif_indeces m = some l →
        l = (findIter m.sequence c.sequence).map (· + m.position)
        ∧ l ≠ []
        ∧ GreedyScan m.sequence c.sequence 0 (findIter m.sequence c.sequence)
        ∧ (∀ x ∈ l, ∃ s0, matchAt m.sequence c.sequence s0 = true
            ∧ x = s0 + m.position)
        ∧ l.Pairwise (· < ·))
    ∧ Contig.find_motif_indeces ⟨"t", "ACGTACGTACGTACGT".data, []⟩
        ⟨[.A, .C, .G, .T], .SixMA, 0⟩ = some [0, 4, 8, 12]
    ∧ Contig.find_motif_indeces
        ⟨"t", "ACCCCGGAGGTCGTACGCCGGATCCGGTACCGGACGTACCGGTCGCCGGAT".data, []⟩
        ⟨[.C, .C, .G, .G, .A], .SixMA, 4⟩ = some [7, 21, 33, 49] := by
  refine ⟨?_, ?_, by decide, by decide⟩
  · simp only [Contig.find_motif_indeces]
    split
    · next hemp =>
      simp only [List.isEmpty_iff, List.map_eq_nil_iff] at hemp
      simp only [true_iff]
      exact (findIter_eq_nil_iff _ _).mp hemp
    · next hemp =>
      simp only [List.isEmpty_iff, List.map_eq_nil_iff] at hemp
      constructor
      · intro habs; exact absurd habs (by simp)
      · intro hall
        exact absurd ((findIter_eq_nil_iff _ _).mpr hall) hemp
  · intro l hl
    simp only [Contig.find_motif_indeces] at hl
    split at hl
    · exact absurd hl (by simp)
    · next hemp =>
      simp only [List.isEmpty_iff, List.map_eq_nil_iff] at hemp
      obtain rfl : (findIter m.sequence c.sequence).map (· + m.position) = l :=
        Option.some_injective _ hl
      refine ⟨rfl, by simpa using hemp, findIter_greedy hm, ?_, ?_⟩
      · intro x hx
        obtain ⟨s0, hs0, rfl⟩ := List.mem_map.mp hx
        exact ⟨s0, (findIterAux_mem hs0).1, rfl⟩
      · exact List.Pairwise.map _ (fun a b hab => by omega)
          (findIterAux_pairwise _ 0)

/-- Witness for C1 at a concrete input. -/
theorem C1_find_motif_indeces_witness :
    Contig.find_motif_indeces ⟨"t", "ACGTACGTACGTACGT".data, []⟩
      ⟨[.A, .C, .G, .T], .SixMA, 0⟩ = some [0, 4, 8, 12] :=
  (C1_find_motif_indeces ⟨"t", "ACGTACGTACGTACGT".data, []⟩
    ⟨[.A, .C, .G, .T], .SixMA, 0⟩ (by decide)).2.2.1

/-- Claim C2: `find_complement_motif_indeces` scans the same forward sequence
with the reverse-complement motif (it coincides with `find_motif_indeces`
applied to the reverse complement), returns `none` exactly when the
reverse-complement pattern matches nowhere, reports each match start plus the
reverse complement's own modified position, and on the two concrete sequences
of the specification returns `some [3, 7, 11, 15]` and `none` respectively. -/
theorem C2_find_complement_motif_indeces (c : Contig) (m : Motif) :
    c.find_complement_motif_indeces m =
      c.find_motif_indeces m.reverse_complement
    ∧ (c.find_complement_motif_indeces m = none ↔
        ∀ i, matchAt m.reverse_complement.sequence c.sequence i = false)
    ∧ (∀ l, c.find_complement_motif_indeces m = some l →
        ∀ x ∈ l, ∃ s0,
          matchAt m.reverse_complement.sequence c.sequence s0 = true
          ∧ x = s0 + m.reverse_complement.position)
    ∧ Contig.find_complement_motif_indeces ⟨"t", "ACGTACGTACGTACGT".data, []⟩
        ⟨[.A, .C, .G, .T], .SixMA, 0⟩ = some [3, 7, 11, 15]
    ∧ Contig.find_complement_motif_indeces ⟨"t", "CCTCCTCCTCCTCCTCC".data, []⟩
        ⟨[.C, .C, .T, .C, .C], .FiveMC, 0⟩ = none := by
  refine ⟨rfl, ?_, ?_, by decide, by decide⟩
  · simp only [Contig.find_complement_motif_indeces]
    split
    · next hemp =>
      simp only [List.isEmpty_iff, List.map_eq_nil_iff] at hemp
      simp only [true_iff]
      exact (findIter_eq_nil_iff _ _).mp hemp
    · next hemp =>
      simp only [List.isEmpty_iff, List.map_eq_nil_iff] at hemp
      constructor
      · intro habs; exact absurd habs (by simp)
      · intro hall
        exact absurd ((findIter_eq_nil_iff _ _).mpr hall) hemp
  · intro l hl
    simp only [Contig.find_complement_motif_indeces] at hl
    split at hl
    · exact absurd hl (by simp)
    · obtain rfl :
          (findIter m.reverse_complement.sequence c.sequence).map
            (· + m.reverse_complement.position) = l :=
        Option.some_injective _ hl
      intro x hx
      obtain ⟨s0, hs0, rfl⟩ := List.mem_map.mp hx
      exact ⟨s0, (findIterAux_mem hs0).1, rfl⟩

/-- Witness for C2 at a concrete input. -/
theorem C2_find_complement_motif_indeces_witness :
    Contig.find_complement_motif_indeces ⟨"t", "ACGTACGTACGTACGT".data, []⟩
      ⟨[.A, .C, .G, .T], .SixMA, 0⟩ = some [3, 7, 11, 15] :=
  (C2_find_complement_motif_indeces ⟨"t", "ACGTACGTACGTACGT".data, []⟩
    ⟨[.A, .C, .G, .T], .SixMA, 0⟩).2.2.2.1

/-- Counterexample for claim C8: for the symbol N, `to_regex` returns the dot
wildcard `"."`, which is neither the literal base letter nor a bracketed
character class. -/
theorem C8_to_regex_counterexample :
    IupacBase.to_regex .N = "."
    ∧ ("." : String).data.head? ≠ some '['
    ∧ ("." : String) ≠ IupacBase.to_string .N := by
  refine ⟨rfl, by decide, by decide⟩

/-- Claim C8 (amended): `to_regex` maps A, C, G, T to the literal base letter;
it maps every degenerate symbol other than N to a bracketed character class
whose members are exactly the symbol's degenerate set per the standard IUPAC
table; and it maps N to the dot wildcard. -/
theorem C8_to_regex (b : IupacBase) :
    ((b = .A ∨ b = .C ∨ b = .G ∨ b = .T) →
      IupacBase.to_regex b = IupacBase.to_string b
      ∧ (IupacBase.to_regex b).data = IupacBase.degenerate_set b)
    ∧ ((b ≠ .A ∧ b ≠ .C ∧ b ≠ .G ∧ b ≠ .T ∧ b ≠ .N) →
      (IupacBase.to_regex b).data.head? = some '['
      ∧ (IupacBase.to_regex b).data.getLast? = some ']'
      ∧ ((IupacBase.to_regex b).data.drop 1).dropLast.Perm
          (IupacBase.degenerate_set b))
    ∧ IupacBase.to_regex .N = "." := by
  cases b <;> exact ⟨by decide, by decide, rfl⟩

/-- Witness for C8 at a concrete input. -/
theorem C8_to_regex_witness :
    (IupacBase.to_regex .R).data.head? = some '['
    ∧ (IupacBase.to_regex .R).data.getLast? = some ']'
    ∧ ((IupacBase.to_regex .R).data.drop 1).dropLast.Perm
        (IupacBase.degenerate_set .R) :=
  (C8_to_regex .R).2.1 (by decide)

/-- Claim C9: `complement` is an involution on every IUPAC symbol, and S, W
and N are self-complementary. -/
theorem C9_complement_involution :
    (∀ b : IupacBase, IupacBase.complement (IupacBase.complement b) = b)
    ∧ IupacBase.complement .S = .S
    ∧ IupacBase.complement .W = .W
    ∧ IupacBase.complement .N = .N := by
  refine ⟨fun b => by cases b <;> rfl, rfl, rfl, rfl⟩

/-! ## Claim theorems: motif pair evaluator -/

/-- The non-palindromic pair parsed from `"CCGGA_6mA_4_6mA_4"`: forward
`CCGGA` with modified position 4, partner `TCCGG` with effective modified
position 0. -/
def pairCCGGA : MotifPair :=
  ⟨⟨[.C, .C, .G, .G, .A], .SixMA, 4⟩, ⟨[.T, .C, .C, .G, .G], .SixMA, 0⟩, false⟩

/-- A record on the negative strand at position 0 of the contig below. -/
def recNeg0 : PileupRecord := ⟨"t", 0, .Negative, .SixMA, 3, 5, 2, 0⟩

/-- A record on the positive strand at position 0 of the contig below. -/
def recPos0 : PileupRecord := ⟨"t", 0, .Positive, .SixMA, 1, 5, 4, 0⟩

/-- A contig whose sequence contains the reverse complement `TCCGG` of
`CCGGA` but no `CCGGA` occurrence, with records present at the reverse-strand
pair site. -/
def contigTCCGG : Contig :=
  ⟨"t", "TCCGG".data,
    [((0, .Negative, .SixMA), recNeg0), ((0, .Positive, .SixMA), recPos0)]⟩

/-- Counterexample for claim C3: for the non-palindromic pair parsed from
`"CCGGA_6mA_4_6mA_4"` on a contig matching only the reverse-complement
pattern, the evaluator returns no rows and never reaches the reverse-strand
scan (because the forward scan found no index and the loop `continue`s),
even though the reverse-complement scan would find index 0 and both
reverse-strand lookups would succeed there. -/
theorem C3_counterexample :
    parse_motif_pair_string "CCGGA_6mA_4_6mA_4" = .ok pairCCGGA
    ∧ pairCCGGA.is_palindromic = false
    ∧ contigTCCGG.find_complement_motif_indeces pairCCGGA.forward = some [0]
    ∧ processRevIndex contigTCCGG pairCCGGA 0 0 = some (some (recNeg0, recPos0))
    ∧ motif_methylation_pattern contigTCCGG pairCCGGA =
        some ⟨[], false⟩ := by
  refine ⟨rfl, rfl, by decide, by decide, by decide⟩

/-- Claim C3 (amended): whenever the evaluator completes on a contig and a
pair, a palindromic pair never reaches the reverse-strand scan; a
non-palindromic pair reaches the reverse-strand scan exactly when the
forward-strand scan returned at least one index (when `find_motif_indeces`
returns `none` the loop `continue`s and the reverse strand is skipped too). -/
theorem C3_palindromic_skip (c : Contig) (pair : MotifPair) (t : EvalResult)
    (h : motif_methylation_pattern c pair = some t) :
    (pair.is_palindromic = true → t.scannedReverse = false)
    ∧ (pair.is_palindromic = false →
        (t.scannedReverse = true ↔ c.find_motif_indeces pair.forward ≠ none)) := by
  unfold motif_methylation_pattern at h
  split at h
  · exact absurd h (by simp)
  · cases hfwd : c.find_motif_indeces pair.forward with
    | none =>
      rw [hfwd] at h
      dsimp only at h
      simp only [Option.some_inj] at h
      subst h
      exact ⟨fun _ => rfl, fun _ => by simp [hfwd]⟩
    | some fwdIdx =>
      rw [hfwd] at h
      dsimp only at h
      by_cases hpal : pair.is_palindromic = true
      · rw [if_pos hpal] at h
        simp only [Option.some_inj] at h
        subst h
        exact ⟨fun _ => rfl, fun hne => absurd hpal (by simp [hne])⟩
      · rw [if_neg hpal] at h
        refine ⟨fun hp => absurd hp hpal, fun _ => ?_⟩
        cases hrev : c.find_complement_motif_indeces pair.forward with
        | none =>
          rw [hrev] at h
          dsimp only at h
          simp only [Option.some_inj] at h
          subst h
          simp [hfwd]
        | some revIdx =>
          rw [hrev] at h
          dsimp only at h
          cases hpr : processRevIndices c pair
              (pair.reverse.reverse_complement.position - pair.forward.position)
              revIdx with
          | none => rw [hpr] at h; exact absurd h (by simp)
          | some rows =>
            rw [hpr] at h
            simp only [Option.map_some', Option.some_inj] at h
            subst h
            simp [hfwd]

/-- The palindromic pair parsed from `"GATC_6mA_1_5mC_2"`. -/
def pairGATC : MotifPair :=
  ⟨⟨[.G, .A, .T, .C], .SixMA, 1⟩, ⟨[.G, .A, .T, .C], .FiveMC, 1⟩, true⟩

/-- A contig consisting of one GATC site, with no records. -/
def contigGATC : Contig := ⟨"t", "GATC".data, []⟩

/-- Witness for C3 at a concrete input: the palindromic GATC pair on a
GATC contig completes without reaching the reverse-strand scan. -/
theorem C3_palindromic_skip_witness :
    (⟨[], false⟩ : EvalResult).scannedReverse = false :=
  (C3_palindromic_skip contigGATC pairGATC ⟨[], false⟩ (by decide)).1 rfl

theorem processRevIndices_isSome (c : Contig) (pair : MotifPair) (shift : Nat) :
    ∀ is : List Nat, (∀ i ∈ is, shift ≤ i) →
      (processRevIndices c pair shift is).isSome = true := by
  intro is
  induction is with
  | nil => intro _; rfl
  | cons i is ih =>
    intro hall
    have hi : shift ≤ i := hall i (by simp)
    have hrest := ih (fun j hj => hall j (by simp [hj]))
    have hsome : (processRevIndex c pair shift i).isSome = true := by
      unfold processRevIndex
      cases c.getRecord (i, .Negative, pair.forward.mod_type) with
      | none => rfl
      | some r1 =>
        dsimp only
        rw [if_neg (show ¬ i < shift by omega)]
        cases c.getRecord (i - shift, .Positive, pair.reverse.mod_type) <;> rfl
    obtain ⟨o, ho⟩ := Option.isSome_iff_exists.mp hsome
    obtain ⟨rest, hrest2⟩ := Option.isSome_iff_exists.mp hrest
    simp [processRevIndices, ho, hrest2]

/-- Claim C10: when the partner's re-expressed modified position is at least
the forward motif's modified position (so `mod_position_shift` does not
underflow) and every reverse-complement match index is at least
`mod_position_shift` (so `index - mod_position_shift` does not underflow),
the evaluator completes: no unsigned subtraction wraps or panics. -/
theorem C10_no_underflow (c : Contig) (pair : MotifPair)
    (h1 : pair.forward.position ≤ pair.reverse.reverse_complement.position)
    (h2 : ∀ l, c.find_complement_motif_indeces pair.forward = some l →
      ∀ i ∈ l,
        pair.reverse.reverse_complement.position - pair.forward.position ≤ i) :
    (motif_methylation_pattern c pair).isSome = true := by
  unfold motif_methylation_pattern
  rw [if_neg (by omega)]
  cases hfwd : c.find_motif_indeces pair.forward with
  | none => rfl
  | some fwdIdx =>
    dsimp only
    by_cases hpal : pair.is_palindromic = true
    · rw [if_pos hpal]; rfl
    · rw [if_neg hpal]
      cases hrev : c.find_complement_motif_indeces pair.forward with
      | none => rfl
      | some revIdx =>
        have h3 := processRevIndices_isSome c pair
          (pair.reverse.reverse_complement.position - pair.forward.position)
          revIdx (h2 revIdx hrev)
        obtain ⟨rows, hrows⟩ := Option.isSome_iff_exists.mp h3
        simp [hrows]

/-- Witness for C10 at a concrete input. -/
theorem C10_no_underflow_witness :
    (motif_methylation_pattern contigTCCGG pairCCGGA).isSome = true :=
  C10_no_underflow contigTCCGG pairCCGGA (by decide)
    (fun l _ i _ => Nat.zero_le i)

/-! ## Claim theorems: motif pair construction -/

theorem from_char_to_char (b : IupacBase) :
    IupacBase.from_char (IupacBase.to_char b) = some b := by
  cases b <;> rfl

theorem parseBases_map_to_char (l : List IupacBase) :
    parseBases (l.map IupacBase.to_char) = some l := by
  induction l with
  | nil => rfl
  | cons b bs ih =>
    simp only [List.map_cons, parseBases, from_char_to_char, ih,
      Option.bind_eq_bind, Option.some_bind]
    rfl

theorem reverse_complement_sequence_data (m : Motif) :
    (m.reverse_complement_sequence).data =
      m.reverse_complement.sequence.map IupacBase.to_char := rfl

theorem reverse_complement_sequence_length (m : Motif) :
    (m.reverse_complement_sequence).length = m.sequence.length := by
  show (((m.sequence.map IupacBase.complement).reverse).map
    IupacBase.to_char).length = m.sequence.length
  simp

theorem parseU8_le {s : String} {p : Nat} (h : parseU8 s = some p) :
    p ≤ 255 := by
  unfold parseU8 at h
  split at h
  · dsimp only at h
    split at h
    · rename_i hv
      simp only [Option.some_inj] at h
      omega
    · exact absurd h (by simp)
  · exact absurd h (by simp)

/-- Claim C4: given a well-formed forward motif, the partner motif is built
over the reverse complement of the forward motif's sequence with effective
modified position `length - 1 - raw_position`; a raw partner position outside
the sequence makes construction fail with an error (the out-of-range motif
position error), and the derived partner sequence is always a valid IUPAC
sequence (so the invalid-IUPAC failure cannot occur for the partner).  The
`u8` subtraction is embedded with release (wrap-around) semantics. -/
theorem C4_pair_construction (s1 t1 p1s t2 p2s : String) (p1 p2 : Nat)
    (m1 : Motif) (mt2 : ModType)
    (hp1 : parseU8 p1s = some p1)
    (hm1 : Motif.new s1 t1 p1 = .ok m1)
    (hp2 : parseU8 p2s = some p2)
    (ht2 : ModType.fromString t2 = some mt2)
    (hlen : m1.sequence.length ≤ 255) :
    parseBases (m1.reverse_complement_sequence).data =
      some m1.reverse_complement.sequence
    ∧ (p2 < m1.sequence.length →
        pairFromParts s1 t1 p1s t2 p2s = .ok
          ⟨m1,
            ⟨m1.reverse_complement.sequence, mt2,
              m1.sequence.length - 1 - p2⟩,
            decide (m1.sequence = m1.reverse_complement.sequence)⟩)
    ∧ (m1.sequence.length ≤ p2 →
        pairFromParts s1 t1 p1s t2 p2s = .error .posOutOfRange) := by
  have hp2le : p2 ≤ 255 := parseU8_le hp2
  have hseq : parseBases (m1.reverse_complement_sequence).data =
      some m1.reverse_complement.sequence := by
    rw [reverse_complement_sequence_data]
    exact parseBases_map_to_char _
  have hlen2 : (m1.reverse_complement_sequence).length = m1.sequence.length :=
    reverse_complement_sequence_length m1
  have hrclen : m1.reverse_complement.sequence.length = m1.sequence.length := by
    simp [Motif.reverse_complement]
  refine ⟨hseq, ?_, ?_⟩
  · intro hlt
    unfold pairFromParts
    rw [hp1]
    dsimp only
    rw [hm1]
    dsimp only
    rw [hp2]
    dsimp only
    have hpos : ((m1.reverse_complement_sequence.length % 256) + 512 - p2 - 1)
        % 256 = m1.sequence.length - 1 - p2 := by
      rw [hlen2]; omega
    rw [hpos]
    unfold Motif.new
    rw [hseq]
    dsimp only
    rw [ht2]
    dsimp only
    rw [if_pos (show m1.sequence.length - 1 - p2 <
      m1.reverse_complement.sequence.length by rw [hrclen]; omega)]
    dsimp only
    unfold MotifPair.new
    rw [if_pos rfl]
  · intro hge
    unfold pairFromParts
    rw [hp1]
    dsimp only
    rw [hm1]
    dsimp only
    rw [hp2]
    dsimp only
    have hpos : ((m1.reverse_complement_sequence.length % 256) + 512 - p2 - 1)
        % 256 = m1.sequence.length + 255 - p2 := by
      rw [hlen2]; omega
    rw [hpos]
    unfold Motif.new
    rw [hseq]
    dsimp only
    rw [ht2]
    dsimp only
    rw [if_neg (show ¬ m1.sequence.length + 255 - p2 <
      m1.reverse_complement.sequence.length by rw [hrclen]; omega)]

/-- Witness for C4 at a concrete input: `"GATC_6mA_1_5mC_2"` builds the
partner over the reverse complement `GATC` with effective position 1, and the
out-of-range raw position 4 fails. -/
theorem C4_pair_construction_witness :
    pairFromParts "GATC" "6mA" "1" "5mC" "2" = .ok
      ⟨⟨[.G, .A, .T, .C], .SixMA, 1⟩, ⟨[.G, .A, .T, .C], .FiveMC, 1⟩, true⟩
    ∧ pairFromParts "GATC" "6mA" "1" "5mC" "4" = .error .posOutOfRange :=
  ⟨(C4_pair_construction "GATC" "6mA" "1" "5mC" "2" 1 2
      ⟨[.G, .A, .T, .C], .SixMA, 1⟩ .FiveMC rfl rfl rfl rfl
      (by decide)).2.1 (by decide),
   (C4_pair_construction "GATC" "6mA" "1" "5mC" "4" 1 4
      ⟨[.G, .A, .T, .C], .SixMA, 1⟩ .FiveMC rfl rfl rfl rfl
      (by decide)).2.2 (by decide)⟩

/-! ## Claim theorems: output statistics -/

theorem FVal.sub_fin_fin (a b : ℚ) :
    FVal.sub (.fin a) (.fin b) = .fin (a - b) := rfl

theorem FVal.div_fin_fin (a b : ℚ) :
    FVal.div (.fin a) (.fin b) =
      if b = 0 then (if a = 0 then .nan else if 0 < a then .posInf else .negInf)
      else .fin (a / b) := rfl

theorem FVal.div_posInf_fin (b : ℚ) :
    FVal.div .posInf (.fin b) = if b < 0 then .negInf else .posInf := rfl

theorem FVal.div_fin_posInf (a : ℚ) :
    FVal.div (.fin a) .posInf = .fin 0 := rfl

theorem FVal.div_posInf_posInf : FVal.div .posInf .posInf = .nan := rfl

theorem FVal.abs_fin (a : ℚ) : FVal.abs (.fin a) = .fin |a| := rfl

theorem FVal.gtb_fin_fin (a b : ℚ) :
    FVal.gtb (.fin a) (.fin b) = decide (b < a) := rfl

theorem div_nat_fin (n d : Nat) (hd : 1 ≤ d) :
    FVal.div (.fin (n : ℚ)) (.fin (d : ℚ)) = .fin ((n : ℚ) / (d : ℚ)) := by
  have hd0 : (d : ℚ) ≠ 0 := Nat.cast_ne_zero.mpr (by omega)
  rw [FVal.div_fin_fin, if_neg hd0]

theorem odds_fval_eq (n d : Nat) (hd : 1 ≤ d) (hnd : n ≤ d) :
    FVal.div (.fin ((n : ℚ) / d)) (FVal.sub (.fin 1) (.fin ((n : ℚ) / d))) =
      if n = d then FVal.posInf
      else FVal.fin (((n : ℚ) / d) / (1 - (n : ℚ) / d)) := by
  have hd0 : (d : ℚ) ≠ 0 := Nat.cast_ne_zero.mpr (by omega)
  have hdpos : (0 : ℚ) < d := by positivity
  by_cases h : n = d
  · subst h
    rw [if_pos rfl, div_self hd0, FVal.sub_fin_fin]
    norm_num [FVal.div_fin_fin]
  · rw [if_neg h]
    have hlt : (n : ℚ) / d < 1 := by
      rw [div_lt_one hdpos]
      exact_mod_cast lt_of_le_of_ne hnd h
    have hne : 1 - (n : ℚ) / d ≠ 0 := by
      intro habs
      rw [sub_eq_zero] at habs
      exact absurd habs.symm (ne_of_lt hlt)
    rw [FVal.sub_fin_fin, FVal.div_fin_fin, if_neg hne]

theorem odds_ratio_zero_iff (n d : Nat) (hd : 1 ≤ d) (hnd : n < d) :
    (((n : ℚ) / d) / (1 - (n : ℚ) / d) = 0 ↔ n = 0)
    ∧ 0 ≤ ((n : ℚ) / d) / (1 - (n : ℚ) / d) := by
  have hd0 : (d : ℚ) ≠ 0 := Nat.cast_ne_zero.mpr (by omega)
  have hdpos : (0 : ℚ) < d := by positivity
  have hq0 : (0 : ℚ) ≤ (n : ℚ) / d := by positivity
  have hlt : (n : ℚ) / d < 1 := by
    rw [div_lt_one hdpos]
    exact_mod_cast hnd
  have hne : (0 : ℚ) < 1 - (n : ℚ) / d := by linarith
  constructor
  · rw [div_eq_zero_iff, div_eq_zero_iff]
    constructor
    · rintro ((h | h) | h)
      · exact_mod_cast h
      · exact absurd h hd0
      · exact absurd h (ne_of_gt hne)
    · intro h
      exact Or.inl (Or.inl (by exact_mod_cast h))
  · exact div_nonneg hq0 (le_of_lt hne)

/-- The fully methylated record used by the C5 counterexample. -/
def recFull : PileupRecord := ⟨"c", 0, .Positive, .SixMA, 5, 5, 0, 0⟩

/-- Counterexample for claim C5: with both records fully methylated
(`n_mod = n_valid_cov = 5`, so `mean_mod = 1.0`), each odds is `1.0 / 0.0 =
+infinity`, not a not-a-number sentinel; and the odds ratio is NaN
(`inf / inf`) although neither odds is exactly zero. -/
theorem C5_odds_counterexample :
    (write_record_stats recFull recFull).mean_mod_1 = .fin 1
    ∧ (write_record_stats recFull recFull).odds_1 = .posInf
    ∧ (write_record_stats recFull recFull).odds_1 ≠ .nan
    ∧ (write_record_stats recFull recFull).odds_quot = .nan
    ∧ (write_record_stats recFull recFull).odds_1 ≠ .fin 0
    ∧ (write_record_stats recFull recFull).odds_2 ≠ .fin 0 := by
  have hst : write_record_stats recFull recFull =
      ⟨.fin 1, .fin 1, .fin 0, .posInf, .posInf, .nan, "non-differential"⟩ := by
    unfold write_record_stats recFull
    norm_num [FVal.div_fin_fin, FVal.sub_fin_fin, FVal.div_posInf_posInf,
      FVal.abs, FVal.gtb]
  rw [hst]
  refine ⟨rfl, rfl, by simp, rfl, by simp, by simp⟩

/-- Claim C5 (amended): for any paired hit with positive coverage and
`n_mod <= n_valid_cov`, a mean of exactly 1.0 makes the corresponding odds
positive infinity (the row is still produced — `write_record_stats` is
total); and the odds ratio is NaN exactly when either odds is exactly zero
or both odds are infinite (both means exactly 1.0). -/
theorem C5_odds_stats (r1 r2 : PileupRecord)
    (h1 : 1 ≤ r1.n_valid_cov) (h2 : 1 ≤ r2.n_valid_cov)
    (h3 : r1.n_mod ≤ r1.n_valid_cov) (h4 : r2.n_mod ≤ r2.n_valid_cov) :
    ((write_record_stats r1 r2).mean_mod_1 = .fin 1 →
      (write_record_stats r1 r2).odds_1 = .posInf)
    ∧ ((write_record_stats r1 r2).mean_mod_2 = .fin 1 →
      (write_record_stats r1 r2).odds_2 = .posInf)
    ∧ ((write_record_stats r1 r2).odds_quot = .nan ↔
        ((write_record_stats r1 r2).odds_1 = .fin 0
        ∨ (write_record_stats r1 r2).odds_2 = .fin 0
        ∨ ((write_record_stats r1 r2).odds_1 = .posInf
            ∧ (write_record_stats r1 r2).odds_2 = .posInf))) := by
  obtain ⟨ref1, pos1, str1, mt1, n1, d1, nc1, nd1⟩ := r1
  obtain ⟨ref2, pos2, str2, mt2, n2, d2, nc2, nd2⟩ := r2
  simp only at h1 h2 h3 h4
  have hd10 : (d1 : ℚ) ≠ 0 := Nat.cast_ne_zero.mpr (by omega)
  have hd20 : (d2 : ℚ) ≠ 0 := Nat.cast_ne_zero.mpr (by omega)
  have emean1 : (write_record_stats ⟨ref1, pos1, str1, mt1, n1, d1, nc1, nd1⟩
      ⟨ref2, pos2, str2, mt2, n2, d2, nc2, nd2⟩).mean_mod_1 =
      .fin ((n1 : ℚ) / d1) := by
    simp only [write_record_stats, div_nat_fin n1 d1 h1]
  have emean2 : (write_record_stats ⟨ref1, pos1, str1, mt1, n1, d1, nc1, nd1⟩
      ⟨ref2, pos2, str2, mt2, n2, d2, nc2, nd2⟩).mean_mod_2 =
      .fin ((n2 : ℚ) / d2) := by
    simp only [write_record_stats, div_nat_fin n2 d2 h2]
  have eodds1 : (write_record_stats ⟨ref1, pos1, str1, mt1, n1, d1, nc1, nd1⟩
      ⟨ref2, pos2, str2, mt2, n2, d2, nc2, nd2⟩).odds_1 =
      if n1 = d1 then FVal.posInf
      else FVal.fin (((n1 : ℚ) / d1) / (1 - (n1 : ℚ) / d1)) := by
    simp only [write_record_stats, div_nat_fin n1 d1 h1,
      odds_fval_eq n1 d1 h1 h3]
  have eodds2 : (write_record_stats ⟨ref1, pos1, str1, mt1, n1, d1, nc1, nd1⟩
      ⟨ref2, pos2, str2, mt2, n2, d2, nc2, nd2⟩).odds_2 =
      if n2 = d2 then FVal.posInf
      else FVal.fin (((n2 : ℚ) / d2) / (1 - (n2 : ℚ) / d2)) := by
    simp only [write_record_stats, div_nat_fin n2 d2 h2,
      odds_fval_eq n2 d2 h2 h4]
  have equot : (write_record_stats ⟨ref1, pos1, str1, mt1, n1, d1, nc1, nd1⟩
      ⟨ref2, pos2, str2, mt2, n2, d2, nc2, nd2⟩).odds_quot =
      (if (write_record_stats ⟨ref1, pos1, str1, mt1, n1, d1, nc1, nd1⟩
          ⟨ref2, pos2, str2, mt2, n2, d2, nc2, nd2⟩).odds_2 = FVal.fin 0
        ∨ (write_record_stats ⟨ref1, pos1, str1, mt1, n1, d1, nc1, nd1⟩
          ⟨ref2, pos2, str2, mt2, n2, d2, nc2, nd2⟩).odds_1 = FVal.fin 0
        then FVal.nan
        else FVal.div
          (write_record_stats ⟨ref1, pos1, str1, mt1, n1, d1, nc1, nd1⟩
            ⟨ref2, pos2, str2, mt2, n2, d2, nc2, nd2⟩).odds_1
          (write_record_stats ⟨ref1, pos1, str1, mt1, n1, d1, nc1, nd1⟩
            ⟨ref2, pos2, str2, mt2, n2, d2, nc2, nd2⟩).odds_2) := by
    simp only [write_record_stats]
  refine ⟨?_, ?_, ?_⟩
  · intro hm
    rw [emean1] at hm
    simp only [FVal.fin.injEq] at hm
    have hn : n1 = d1 := by
      rwa [div_eq_iff hd10, one_mul, Nat.cast_inj] at hm
    rw [eodds1, if_pos hn]
  · intro hm
    rw [emean2] at hm
    simp only [FVal.fin.injEq] at hm
    have hn : n2 = d2 := by
      rwa [div_eq_iff hd20, one_mul, Nat.cast_inj] at hm
    rw [eodds2, if_pos hn]
  · rw [equot, eodds1, eodds2]
    by_cases hq1 : n1 = d1
    · rw [if_pos hq1]
      by_cases hq2 : n2 = d2
      · rw [if_pos hq2]
        rw [if_neg (by rintro (h | h) <;> exact FVal.noConfusion h)]
        rw [FVal.div_posInf_posInf]
        simp
      · rw [if_neg hq2]
        obtain ⟨hz2, hpos2⟩ := odds_ratio_zero_iff n2 d2 h2
          (lt_of_le_of_ne h4 hq2)
        by_cases hz : ((n2 : ℚ) / d2) / (1 - (n2 : ℚ) / d2) = 0
        · rw [if_pos (Or.inl (by rw [hz]))]
          exact iff_of_true rfl (Or.inr (Or.inl (by rw [hz])))
        · rw [if_neg (by
            rintro (h | h)
            · exact hz (by simpa using h)
            · exact FVal.noConfusion h)]
          rw [FVal.div_posInf_fin, if_neg (not_lt.mpr hpos2)]
          simp [hz]
    · rw [if_neg hq1]
      obtain ⟨hz1, hpos1⟩ := odds_ratio_zero_iff n1 d1 h1
        (lt_of_le_of_ne h3 hq1)
      by_cases hq2 : n2 = d2
      · rw [if_pos hq2]
        by_cases hz : ((n1 : ℚ) / d1) / (1 - (n1 : ℚ) / d1) = 0
        · rw [if_pos (Or.inr (by rw [hz]))]
          exact iff_of_true rfl (Or.inl (by rw [hz]))
        · rw [if_neg (by
            rintro (h | h)
            · exact FVal.noConfusion h
            · exact hz (by simpa using h))]
          rw [FVal.div_fin_posInf]
          simp [hz]
      · rw [if_neg hq2]
        obtain ⟨hz2, hpos2⟩ := odds_ratio_zero_iff n2 d2 h2
          (lt_of_le_of_ne h4 hq2)
        by_cases hza : ((n1 : ℚ) / d1) / (1 - (n1 : ℚ) / d1) = 0
        · rw [if_pos (Or.inr (by rw [hza]))]
          exact iff_of_true rfl (Or.inl (by rw [hza]))
        · by_cases hzb : ((n2 : ℚ) / d2) / (1 - (n2 : ℚ) / d2) = 0
          · rw [if_pos (Or.inl (by rw [hzb]))]
            exact iff_of_true rfl (Or.inr (Or.inl (by rw [hzb])))
          · rw [if_neg (by
              rintro (h | h)
              · exact hzb (by simpa using h)
              · exact hza (by simpa using h))]
            rw [FVal.div_fin_fin, if_neg hzb]
            simp [hza, hzb]

/-- Witness for C5 at a concrete input: the specification's own example
(`n_mod = 8, cov = 10` against `n_mod = 2, cov = 10`) yields a non-NaN odds
ratio. -/
theorem C5_odds_stats_witness :
    (write_record_stats ⟨"c", 0, .Positive, .SixMA, 8, 10, 2, 0⟩
      ⟨"c", 5, .Negative, .SixMA, 2, 10, 8, 0⟩).odds_quot ≠ FVal.nan := by
  have hc := (C5_odds_stats ⟨"c", 0, .Positive, .SixMA, 8, 10, 2, 0⟩
    ⟨"c", 5, .Negative, .SixMA, 2, 10, 8, 0⟩ (by norm_num) (by norm_num)
    (by norm_num) (by norm_num))
  intro hq
  have h := hc.2.2.mp hq
  have e1 : (write_record_stats ⟨"c", 0, .Positive, .SixMA, 8, 10, 2, 0⟩
      ⟨"c", 5, .Negative, .SixMA, 2, 10, 8, 0⟩).odds_1 = .fin 4 := by
    unfold write_record_stats
    norm_num [FVal.div_fin_fin, FVal.sub_fin_fin]
  have e2 : (write_record_stats ⟨"c", 0, .Positive, .SixMA, 8, 10, 2, 0⟩
      ⟨"c", 5, .Negative, .SixMA, 2, 10, 8, 0⟩).odds_2 = .fin (1 / 4) := by
    unfold write_record_stats
    norm_num [FVal.div_fin_fin, FVal.sub_fin_fin]
  rw [e1, e2] at h
  rcases h with h | h | ⟨h, _⟩
  · simp at h
  · rw [FVal.fin.injEq] at h
    norm_num at h
  · exact FVal.noConfusion h

/-! ## Lemmas about the pileup reader -/

/-- The Bool predicate "this line's reference field equals `c`". -/
def refMatches (c : String) : RawLine → Bool := fun x => getField x 0 == c

/-- The records surviving parsing and validation of a list of lines. -/
def parseList (min_cov : Nat) (ls : List RawLine) : List PileupRecord :=
  ls.filterMap (fun l => parse_and_validate_pileup_record l min_cov)

theorem parseList_nil (mc : Nat) : parseList mc [] = [] := rfl

theorem parseList_cons (mc : Nat) (l : RawLine) (ls : List RawLine) :
    parseList mc (l :: ls) =
      (parse_and_validate_pileup_record l mc).toList ++ parseList mc ls := by
  unfold parseList
  rw [List.filterMap_cons]
  cases parse_and_validate_pileup_record l mc <;> simp

theorem parse_reference {l : RawLine} {mc : Nat} {r : PileupRecord}
    (h : parse_and_validate_pileup_record l mc = some r) :
    r.reference = getField l 0 := by
  unfold parse_and_validate_pileup_record at h
  split at h
  · exact absurd h (by simp)
  · split at h
    · exact absurd h (by simp)
    · split at h
      · obtain rfl := Option.some_injective _ h
        rfl
      · exact absurd h (by simp)

theorem parse_min_cov {l : RawLine} {mc : Nat} {r : PileupRecord}
    (h : parse_and_validate_pileup_record l mc = some r) :
    mc ≤ r.n_valid_cov := by
  unfold parse_and_validate_pileup_record at h
  split at h
  · exact absurd h (by simp)
  · split at h
    · exact absurd h (by simp)
    · next hcov =>
      split at h
      · obtain rfl := Option.some_injective _ h
        simp only
        omega
      · exact absurd h (by simp)

theorem parse_below_min_cov {l : RawLine} {mc v : Nat}
    (h9 : atoiNat (getField l 9) = some v) (hv : v < mc) :
    parse_and_validate_pileup_record l mc = none := by
  unfold parse_and_validate_pileup_record
  rw [h9]
  dsimp only
  rw [if_pos hv]

theorem parseList_ref {mc : Nat} {c : String} {ls : List RawLine}
    (hls : ∀ x ∈ ls, getField x 0 = c) :
    ∀ r ∈ parseList mc ls, r.reference = c := by
  intro r hr
  obtain ⟨x, hx, hpx⟩ := List.mem_filterMap.mp hr
  rw [parse_reference hpx]
  exact hls x hx

theorem readLoop_some_eq (mc : Nat) (c : String) :
    ∀ (input : List RawLine) (acc : List PileupRecord),
      readLoop mc (some c) input acc =
        (match input.dropWhile (refMatches c) with
         | [] => ([], [], acc ++ parseList mc (input.takeWhile (refMatches c)),
             true)
         | l :: ls => ([l], ls,
             acc ++ parseList mc (input.takeWhile (refMatches c)), false)) := by
  intro input
  induction input with
  | nil => intro acc; simp [readLoop, parseList]
  | cons l ls ih =>
    intro acc
    by_cases hrc : getField l 0 = c
    · have hb : refMatches c l = true := by
        simp [refMatches, hrc]
      simp only [readLoop]
      rw [if_neg (fun hne => hne hrc)]
      rw [ih]
      rw [List.dropWhile_cons, List.takeWhile_cons, hb]
      simp only [if_true]
      rw [parseList_cons]
      cases ls.dropWhile (refMatches c) <;> simp
    · have hb : refMatches c l = false := by
        simp [refMatches, hrc]
      simp only [readLoop]
      rw [if_pos hrc]
      rw [List.dropWhile_cons, List.takeWhile_cons, hb]
      simp [parseList]

theorem next_chunk_spec (mc : Nat) (st : ReaderState)
    (hbuf : st.buffer.length ≤ 1) (l : RawLine) (ls : List RawLine)
    (hstream : st.buffer ++ st.input = l :: ls) :
    next_chunk mc st =
      (match parseList mc (l :: ls.takeWhile (refMatches (getField l 0))) with
       | [] => none
       | r :: rs => some ⟨r.reference, r :: rs⟩,
       match ls.dropWhile (refMatches (getField l 0)) with
       | [] => ⟨[], [], true⟩
       | x :: xs => ⟨[x], xs, st.eof_reached⟩) := by
  obtain ⟨buf, inp, eflag⟩ := st
  simp only at hbuf hstream ⊢
  cases buf with
  | nil =>
    simp only [List.nil_append] at hstream
    subst hstream
    unfold next_chunk
    simp only [bufferLoop, readLoop]
    rw [readLoop_some_eq]
    rw [parseList_cons]
    cases hdw : ls.dropWhile (refMatches (getField l 0)) with
    | nil =>
      dsimp only
      rw [Bool.or_true]
      simp only [List.nil_append]
      cases (parse_and_validate_pileup_record l mc).toList ++
        parseList mc (ls.takeWhile (refMatches (getField l 0))) <;> rfl
    | cons x xs =>
      dsimp only
      rw [Bool.or_false]
      simp only [List.nil_append]
      cases (parse_and_validate_pileup_record l mc).toList ++
        parseList mc (ls.takeWhile (refMatches (getField l 0))) <;> rfl
  | cons b bs =>
    have hbs : bs = [] := by
      have : bs.length = 0 := by
        simp only [List.length_cons] at hbuf
        omega
      exact List.eq_nil_of_length_eq_zero this
    subst hbs
    simp only [List.cons_append, List.nil_append, List.cons.injEq] at hstream
    obtain ⟨rfl, rfl⟩ := hstream
    unfold next_chunk
    simp only [bufferLoop]
    rw [readLoop_some_eq]
    rw [parseList_cons]
    cases hdw : inp.dropWhile (refMatches (getField b 0)) with
    | nil =>
      dsimp only
      rw [Bool.or_true]
      simp only [List.nil_append, List.append_nil]
      cases (parse_and_validate_pileup_record b mc).toList ++
        parseList mc (inp.takeWhile (refMatches (getField b 0))) <;> rfl
    | cons x xs =>
      dsimp only
      rw [Bool.or_false]
      simp only [List.nil_append, List.append_nil]
      cases (parse_and_validate_pileup_record b mc).toList ++
        parseList mc (inp.takeWhile (refMatches (getField b 0))) <;> rfl

theorem next_chunk_empty (mc : Nat) (st : ReaderState)
    (hstream : st.buffer ++ st.input = []) :
    next_chunk mc st = (none, ⟨[], [], true⟩) := by
  obtain ⟨buf, inp, eflag⟩ := st
  simp only [List.append_eq_nil] at hstream
  obtain ⟨rfl, rfl⟩ := hstream
  unfold next_chunk
  simp only [bufferLoop, readLoop]
  rw [Bool.or_true]
  simp

theorem bufferLoop_acc_mem (mc : Nat) :
    ∀ (curRef : Option String) (buffer : List RawLine)
      (acc : List PileupRecord) (r : PileupRecord),
      r ∈ (bufferLoop mc curRef buffer acc).2.2 →
      r ∈ acc ∨ ∃ l, parse_and_validate_pileup_record l mc = some r := by
  intro curRef buffer
  induction buffer generalizing curRef with
  | nil => intro acc r hr; exact Or.inl hr
  | cons l ls ih =>
    intro acc r hr
    cases curRef with
    | some c =>
      simp only [bufferLoop] at hr
      by_cases hrc : getField l 0 ≠ c
      · rw [if_pos hrc] at hr
        exact Or.inl hr
      · rw [if_neg hrc] at hr
        rcases ih (some c) _ r hr with hm | hm
        · rcases List.mem_append.mp hm with hm2 | hm2
          · exact Or.inl hm2
          · exact Or.inr ⟨l, by simpa using hm2⟩
        · exact Or.inr hm
    | none =>
      simp only [bufferLoop] at hr
      rcases ih (some (getField l 0)) _ r hr with hm | hm
      · rcases List.mem_append.mp hm with hm2 | hm2
        · exact Or.inl hm2
        · exact Or.inr ⟨l, by simpa using hm2⟩
      · exact Or.inr hm

theorem readLoop_acc_mem (mc : Nat) :
    ∀ (curRef : Option String) (input : List RawLine)
      (acc : List PileupRecord) (r : PileupRecord),
      r ∈ (readLoop mc curRef input acc).2.2.1 →
      r ∈ acc ∨ ∃ l, parse_and_validate_pileup_record l mc = some r := by
  intro curRef input
  induction input generalizing curRef with
  | nil => intro acc r hr; exact Or.inl hr
  | cons l ls ih =>
    intro acc r hr
    cases curRef with
    | some c =>
      simp only [readLoop] at hr
      by_cases hrc : getField l 0 ≠ c
      · rw [if_pos hrc] at hr
        exact Or.inl hr
      · rw [if_neg hrc] at hr
        rcases ih (some c) _ r hr with hm | hm
        · rcases List.mem_append.mp hm with hm2 | hm2
          · exact Or.inl hm2
          · exact Or.inr ⟨l, by simpa using hm2⟩
        · exact Or.inr hm
    | none =>
      simp only [readLoop] at hr
      rcases ih (some (getField l 0)) _ r hr with hm | hm
      · rcases List.mem_append.mp hm with hm2 | hm2
        · exact Or.inl hm2
        · exact Or.inr ⟨l, by simpa using hm2⟩
      · exact Or.inr hm

theorem next_chunk_records_parse (mc : Nat) (st : ReaderState)
    (chunk : PileupChunk) (st2 : ReaderState)
    (h : next_chunk mc st = (some chunk, st2)) :
    ∀ r ∈ chunk.records, ∃ l, parse_and_validate_pileup_record l mc = some r := by
  intro r hr
  unfold next_chunk at h
  rcases hbl : bufferLoop mc none st.buffer [] with ⟨curRef, buf1, acc1⟩
  rw [hbl] at h
  dsimp only at h
  rcases hrl : readLoop mc curRef st.input acc1 with ⟨pushed, rem, acc2, eof⟩
  rw [hrl] at h
  dsimp only at h
  cases acc2 with
  | nil => exact absurd h (by simp)
  | cons r0 rs =>
    simp only [Prod.mk.injEq, Option.some_inj] at h
    obtain ⟨rfl, -⟩ := h
    have hmem : r ∈ (readLoop mc curRef st.input acc1).2.2.1 := by
      rw [hrl]; exact hr
    rcases readLoop_acc_mem mc curRef st.input acc1 r hmem with hm | hm
    · have hmem2 : r ∈ (bufferLoop mc none st.buffer []).2.2 := by
        rw [hbl]; exact hm
      rcases bufferLoop_acc_mem mc none st.buffer [] r hmem2 with hm2 | hm2
      · exact absurd hm2 (List.not_mem_nil r)
      · exact hm2
    · exact hm

/-! ## Claim theorems: pileup reader -/

/-- Claim C6: every chunk produced by `next_chunk` is homogeneous (each
record's reference equals the chunk's reference); on an empty stream nothing
is produced; and on a non-empty stream the chunk consists of exactly the
validated records of the maximal prefix of consecutive lines sharing the
first line's reference (which, together with the remainder, reassembles the
stream — no line dropped or duplicated), while the first line of a different
reference is pushed back into the lookahead buffer and the remainder of the
stream is untouched, so it becomes the first line of the next chunk. -/
theorem C6_chunk_invariants (mc : Nat) (st : ReaderState)
    (hbuf : st.buffer.length ≤ 1) :
    (∀ chunk st2, next_chunk mc st = (some chunk, st2) →
      ∀ r ∈ chunk.records, r.reference = chunk.reference)
    ∧ (st.buffer ++ st.input = [] → next_chunk mc st = (none, ⟨[], [], true⟩))
    ∧ (∀ l ls, st.buffer ++ st.input = l :: ls →
        ((l :: ls.takeWhile (refMatches (getField l 0))) ++
            ls.dropWhile (refMatches (getField l 0)) = l :: ls)
        ∧ next_chunk mc st =
          (match parseList mc
              (l :: ls.takeWhile (refMatches (getField l 0))) with
           | [] => none
           | r :: rs => some ⟨r.reference, r :: rs⟩,
           match ls.dropWhile (refMatches (getField l 0)) with
           | [] => ⟨[], [], true⟩
           | x :: xs => ⟨[x], xs, st.eof_reached⟩)) := by
  refine ⟨?_, next_chunk_empty mc st,
    fun l ls hstream =>
      ⟨by rw [List.cons_append, List.takeWhile_append_dropWhile],
        next_chunk_spec mc st hbuf l ls hstream⟩⟩
  intro chunk st2 h r hr
  cases hstream : st.buffer ++ st.input with
  | nil =>
    rw [next_chunk_empty mc st hstream] at h
    exact absurd h (by simp)
  | cons l ls =>
    rw [next_chunk_spec mc st hbuf l ls hstream] at h
    cases hpl : parseList mc
        (l :: ls.takeWhile (refMatches (getField l 0))) with
    | nil => rw [hpl] at h; exact absurd h (by simp)
    | cons r0 rs =>
      rw [hpl] at h
      simp only [Prod.mk.injEq, Option.some_inj] at h
      obtain ⟨rfl, -⟩ := h
      have hall : ∀ x ∈ l :: ls.takeWhile (refMatches (getField l 0)),
          getField x 0 = getField l 0 := by
        intro x hx
        rcases List.mem_cons.mp hx with rfl | hx2
        · rfl
        · have := List.mem_takeWhile_imp hx2
          simpa [refMatches] using this
      have hrefs := @parseList_ref mc (getField l 0) _ hall
      have hr0 : r0.reference = getField l 0 :=
        hrefs r0 (by rw [hpl]; exact List.mem_cons_self _ _)
      have hrr : r.reference = getField l 0 :=
        hrefs r (by rw [hpl]; exact hr)
      dsimp only
      rw [hrr, hr0]

/-- Pileup line for reference A at position 0 used by the reader witnesses. -/
def lineA1 : RawLine :=
  ["A", "0", "x", "a", "x", "+", "x", "x", "x", "10", "x", "3", "7", "x", "x",
    "x", "x", "0"]

/-- Pileup line for reference A at position 1. -/
def lineA2 : RawLine :=
  ["A", "1", "x", "m", "x", "-", "x", "x", "x", "10", "x", "4", "6", "x", "x",
    "x", "x", "1"]

/-- Pileup line for reference B at position 0. -/
def lineB1 : RawLine :=
  ["B", "0", "x", "a", "x", "+", "x", "x", "x", "10", "x", "3", "7", "x", "x",
    "x", "x", "0"]

/-- Initial reader state holding two A lines then one B line. -/
def st0 : ReaderState := ⟨[], [lineA1, lineA2, lineB1], false⟩

/-- Witness for C6 at a concrete input: the chunk holds both A records, and
the B line is pushed back into the buffer to open the next chunk. -/
theorem C6_chunk_invariants_witness :
    next_chunk 1 st0 =
      (some ⟨"A", [⟨"A", 0, .Positive, .SixMA, 3, 10, 7, 0⟩,
        ⟨"A", 1, .Negative, .FiveMC, 4, 10, 6, 1⟩]⟩,
        ⟨[lineB1], [], false⟩) := by
  rw [((C6_chunk_invariants 1 st0 (by decide)).2.2 lineA1 [lineA2, lineB1]
    rfl).2]
  decide

/-- Claim C7: a line whose parsed `n_valid_cov` is below the configured
minimum is dropped during parsing (the parser returns `none`), and every
record of every chunk emitted by `next_chunk` satisfies
`min_cov <= n_valid_cov`. -/
theorem C7_min_cov_invariant :
    (∀ (l : RawLine) (mc v : Nat), atoiNat (getField l 9) = some v →
      v < mc → parse_and_validate_pileup_record l mc = none)
    ∧ (∀ (mc : Nat) (st : ReaderState) (chunk : PileupChunk)
        (st2 : ReaderState), next_chunk mc st = (some chunk, st2) →
        ∀ r ∈ chunk.records, mc ≤ r.n_valid_cov) := by
  refine ⟨fun l mc v h9 hv => parse_below_min_cov h9 hv, ?_⟩
  intro mc st chunk st2 h r hr
  obtain ⟨l, hl⟩ := next_chunk_records_parse mc st chunk st2 h r hr
  exact parse_min_cov hl

/-- Pileup line with coverage 3, below the minimum of 5 used in the witness. -/
def lineLow : RawLine :=
  ["A", "0", "x", "a", "x", "+", "x", "x", "x", "3", "x", "1", "2", "x", "x",
    "x", "x", "0"]

/-- Witness for C7 at a concrete input. -/
theorem C7_min_cov_invariant_witness :
    parse_and_validate_pileup_record lineLow 5 = none :=
  C7_min_cov_invariant.1 lineLow 5 3 (by decide) (by omega)

end MotifPairMeth
